import Mathlib

set_option maxRecDepth 20000

/-!
Shallow embedding of the `CodeExtractor` pipeline (src: `CodeExtractor` class,
`extractor.ts`): `isValidPath`, `parseComment` with its three `PATH_PATTERNS`,
`splitIntoCodeBlocks`, `processCodeBlock`, artifact scanning and `extractFiles`.
Strings are modelled as `List Char`; JavaScript regexes are embedded as
deterministic matchers (each character class in the source patterns is disjoint
from the character that follows it, so greedy matching needs no backtracking,
except for the documented one-step backtrack in the optional description group).
JS `\w` is ASCII `[A-Za-z0-9_]`; `\s` is modelled by the common ASCII whitespace
characters, which is exact for every character class used in the source.
-/

abbrev Str := List Char

def str (s : String) : Str := s.data

/-- JS `\w` character class (no `u` flag): ASCII letters, digits, underscore. -/
def isWordChar (c : Char) : Bool := c.isAlphanum || c = '_'

/-- character class `[\w-]` of the source patterns. -/
def isWordHyphen (c : Char) : Bool := isWordChar c || c = '-'

/-- character class `[\w slash -]` of the source patterns. -/
def isWordSlashHyphen (c : Char) : Bool := isWordChar c || c = '/' || c = '-'

/-- ASCII fragment of JS `\s` (space, tab, newline, CR, vertical tab, form feed). -/
def isSpaceChar (c : Char) : Bool :=
  c = ' ' || c = '\t' || c = '\n' || c = '\r' || c = '\x0b' || c = '\x0c'

/-- `s` begins with the character sequence `pre` (JS `String.startsWith`). -/
def startsWithChars : Str → Str → Bool
  | _, [] => true
  | [], _ :: _ => false
  | c :: cs, p :: ps => c = p && startsWithChars cs ps

/-- `sub` occurs contiguously in `s` (JS `String.includes`). -/
def containsSubstr : Str → Str → Bool
  | s, sub =>
    startsWithChars s sub ||
      (match s with
       | [] => false
       | _ :: rest => containsSubstr rest sub)

def trimLeftChars (l : Str) : Str := l.dropWhile isSpaceChar

def trimRightChars (l : Str) : Str := ((l.reverse).dropWhile isSpaceChar).reverse

/-- JS `String.trim`. -/
def trimChars (l : Str) : Str := trimRightChars (trimLeftChars l)

/-- JS `String.split(ch)` (keeps empty pieces; `""` splits to `[""]`). -/
def splitOnChar (ch : Char) : Str → List Str
  | [] => [[]]
  | c :: r =>
    if c = ch then [] :: splitOnChar ch r
    else
      match splitOnChar ch r with
      | h :: t => (c :: h) :: t
      | [] => [[c]]

/-- JS `Array.join(ch)`. -/
def joinWith (ch : Char) : List Str → Str
  | [] => []
  | [x] => x
  | x :: xs => x ++ ch :: joinWith ch xs

/-- JS `String.startsWith(sep)` for the one-character separator `/`. -/
def startsWithSlash : Str → Bool
  | c :: _ => c = '/'
  | [] => false

/-!  Node `path` module (posix), as used by `processCodeBlock`:
`path.join`, `path.basename`, `path.extname`. -/

/-- One step of posix path normalization over the slash-split segments;
the stack is kept most-recent-first. -/
def normSegStep (isAbs : Bool) (stack : List Str) (seg : Str) : List Str :=
  if seg.isEmpty || seg = ['.'] then stack
  else if seg = ['.', '.'] then
    match stack with
    | top :: restSt => if top = ['.', '.'] then seg :: stack else restSt
    | [] => if isAbs then [] else [seg]
  else seg :: stack

/-- Node `path.posix.normalize`, restricted to inputs without a trailing slash
(the joined paths built by the extractor always end in a file extension). -/
def normalizePath (p : Str) : Str :=
  let isAbs := startsWithSlash p
  let stack := (splitOnChar '/' p).foldl (normSegStep isAbs) []
  let core := joinWith '/' stack.reverse
  let res := if isAbs then '/' :: core else core
  if res.isEmpty then ['.'] else res

/-- Node `path.posix.join a b`. -/
def joinPath (a b : Str) : Str :=
  let parts := [a, b].filter (fun x => !x.isEmpty)
  if parts.isEmpty then ['.'] else normalizePath (joinWith '/' parts)

/-- Node `path.posix.basename`. -/
def basenameOf (p : Str) : Str :=
  let q := (p.reverse.dropWhile (· = '/')).reverse
  if q.isEmpty then (if p.isEmpty then [] else ['/'])
  else (q.reverse.takeWhile (· ≠ '/')).reverse

/-- Node `path.posix.extname`: from the last dot of the basename (if the dot is
not its first character) to the end. -/
def extnameOf (p : Str) : Str :=
  let b := basenameOf p
  let after := b.reverse.takeWhile (· ≠ '.')
  if after.length = b.length then []          -- no dot in the basename
  else if after.length + 1 = b.length then [] -- dot is the first character
  else '.' :: after.reverse

/-! Data model (`types.ts` / `extractor.ts`). -/

structure ParsedComment where
  isPath : Bool
  path : Option Str := none
  comment : Option Str := none
deriving DecidableEq, Repr

structure CodeBlock where
  path : Str
  content : Str
deriving DecidableEq, Repr

structure FileMetadata where
  language : Str
  fileName : Str
  filePath : Str
  content : Str
  type : Str
deriving DecidableEq, Repr

/-! `isValidPath` (extractor.ts:138-144). -/

/-- The test of `^[\w-]+\/[\w slash -]+\.\w+$`.  Greedy matching is deterministic:
`/` is not in `[\w-]`, `.` is not in `[\w slash -]`, and `\w+$` must take the whole
remainder. -/
def pathShapeTest (p : Str) : Bool :=
  let s1 := p.takeWhile isWordHyphen
  match p.dropWhile isWordHyphen with
  | '/' :: r2 =>
    let mid := r2.takeWhile isWordSlashHyphen
    (match r2.dropWhile isWordSlashHyphen with
     | '.' :: ext => !s1.isEmpty && !mid.isEmpty && !ext.isEmpty && ext.all isWordChar
     | _ => false)
  | _ => false

/-- `CodeExtractor.isValidPath` (extractor.ts:138-144). -/
def isValidPath (p : Str) : Bool :=
  pathShapeTest p &&
    !containsSubstr p (str "..") &&
    !startsWithSlash p &&
    !containsSubstr p (str "\\")

/-! The three `PATH_PATTERNS` (extractor.ts:132-136), embedded as leftmost-match
scanners the way `RegExp.exec` applies them. -/

/-- Match `([\w-]+\/[\w slash -]+\.\w+)` at the start of `r`; returns the captured
path and the remainder of the line after it. -/
def parsePathAt (r : Str) : Option (Str × Str) :=
  let s1 := r.takeWhile isWordHyphen
  if s1.isEmpty then none
  else
    match r.dropWhile isWordHyphen with
    | '/' :: r2 =>
      let mid := r2.takeWhile isWordSlashHyphen
      if mid.isEmpty then none
      else
        match r2.dropWhile isWordSlashHyphen with
        | '.' :: r3 =>
          let w := r3.takeWhile isWordChar
          if w.isEmpty then none
          else some (s1 ++ '/' :: mid ++ '.' :: w, r3.dropWhile isWordChar)
        | _ => none
    | _ => none

/-- The optional `(?:\s*:\s*(.+))?` description group of pattern 1, applied to
the remainder after the path.  If everything after the colon is whitespace the
greedy `\s*` backtracks one step so that `(.+)` can still match. -/
def tryDesc (r : Str) : Option Str :=
  match r.dropWhile isSpaceChar with
  | ':' :: b =>
    let rest := b.dropWhile isSpaceChar
    if rest.isEmpty then
      if b.isEmpty then none else some (b.drop (b.length - 1))
    else some rest
  | _ => none

/-- Pattern 1 `/\/\/\s*([\w-]+\/[\w slash -]+\.\w+)(?:\s*:\s*(.+))?/` at one start
position. -/
def tryP1At : Str → Option (Str × Option Str)
  | '/' :: '/' :: r =>
    (match parsePathAt (r.dropWhile isSpaceChar) with
     | some (p, r4) => some (p, tryDesc r4)
     | none => none)
  | _ => none

/-- Pattern 2 `/\/\/\s*@file\s+([\w-]+\/[\w slash -]+\.\w+)/` at one start position. -/
def tryP2At : Str → Option Str
  | '/' :: '/' :: r =>
    (match r.dropWhile isSpaceChar with
     | '@' :: 'f' :: 'i' :: 'l' :: 'e' :: r2 =>
       if (r2.takeWhile isSpaceChar).isEmpty then none
       else
         match parsePathAt (r2.dropWhile isSpaceChar) with
         | some (p, _) => some p
         | none => none
     | _ => none)
  | _ => none

/-- Pattern 3 `/\/\/\s*filepath:\s*([\w-]+\/[\w slash -]+\.\w+)/` at one start
position. -/
def tryP3At : Str → Option Str
  | '/' :: '/' :: r =>
    (match r.dropWhile isSpaceChar with
     | 'f' :: 'i' :: 'l' :: 'e' :: 'p' :: 'a' :: 't' :: 'h' :: ':' :: r2 =>
       (match parsePathAt (r2.dropWhile isSpaceChar) with
        | some (p, _) => some p
        | none => none)
     | _ => none)
  | _ => none

/-- `RegExp.exec` leftmost scan for pattern 1. -/
def execP1 : Str → Option (Str × Option Str)
  | [] => none
  | c :: rest =>
    match tryP1At (c :: rest) with
    | some x => some x
    | none => execP1 rest

/-- `RegExp.exec` leftmost scan for pattern 2. -/
def execP2 : Str → Option Str
  | [] => none
  | c :: rest =>
    match tryP2At (c :: rest) with
    | some x => some x
    | none => execP2 rest

/-- `RegExp.exec` leftmost scan for pattern 3. -/
def execP3 : Str → Option Str
  | [] => none
  | c :: rest =>
    match tryP3At (c :: rest) with
    | some x => some x
    | none => execP3 rest

/-- Fall back to the plain-comment result (extractor.ts:171). -/
def plainCommentOf (l : Str) : ParsedComment :=
  ⟨false, none, some (trimChars (l.drop 2))⟩

/-- Third loop iteration of `parseComment`. -/
def parseP3 (l : Str) : ParsedComment :=
  match execP3 l with
  | some p => if isValidPath p then ⟨true, some p, none⟩ else plainCommentOf l
  | none => plainCommentOf l

/-- Second loop iteration of `parseComment`. -/
def parseP2 (l : Str) : ParsedComment :=
  match execP2 l with
  | some p => if isValidPath p then ⟨true, some p, none⟩ else parseP3 l
  | none => parseP3 l

/-- `CodeExtractor.parseComment` (extractor.ts:146-172).  The source trims the
line and returns early when it does not start with the comment marker; the
early return is written here as the else branch of the same test. -/
def parseComment (line : Str) : ParsedComment :=
  if startsWithChars (trimChars line) (str "//") then
    match execP1 (trimChars line) with
    | some (p, d) =>
      if isValidPath p then ⟨true, some p, d⟩ else parseP2 (trimChars line)
    | none => parseP2 (trimChars line)
  else ⟨false, none, none⟩

/-! `splitIntoCodeBlocks` (extractor.ts:173-237). -/

structure ScanState where
  blocks : List CodeBlock
  currentPath : Option Str
  currentContent : List Str
  inCodeBlock : Bool
  codeBlockContent : Str
deriving DecidableEq, Repr

def initScanState : ScanState := ⟨[], none, [], false, []⟩

/-- Save of the previous block on a new path declaration (extractor.ts:209-216):
push only when a path is declared and at least one line has accumulated. -/
def savePrevBlock (s : ScanState) : ScanState :=
  match s.currentPath with
  | some cp =>
    if s.currentContent.isEmpty then s
    else
      { s with
        blocks := s.blocks ++ [CodeBlock.mk cp (trimChars (joinWith '\n' s.currentContent))],
        currentContent := [] }
  | none => s

/-- `currentPath = parsedComment.path!` (extractor.ts:217). -/
def setCurrentPath (s : ScanState) (p : Str) : ScanState :=
  { s with currentPath := some p }

/-- Seed of the description comment into the accumulator (extractor.ts:219-222);
an empty description is falsy in JS and seeds nothing. -/
def seedComment (s : ScanState) (co : Option Str) : ScanState :=
  match co with
  | some d =>
    if d.isEmpty then s
    else { s with currentContent := s.currentContent ++ [str "// " ++ d] }
  | none => s

/-- The body of the `for` loop over lines (extractor.ts:182-226). -/
def scanLine (s : ScanState) (line : Str) : ScanState :=
  if startsWithChars (trimChars line) (str "```") then
    if s.inCodeBlock then
      { s with
        currentContent :=
          if s.currentPath.isSome then s.currentContent ++ [s.codeBlockContent]
          else s.currentContent,
        codeBlockContent := [],
        inCodeBlock := false }
    else { s with inCodeBlock := true }
  else if s.inCodeBlock then
    { s with codeBlockContent := s.codeBlockContent ++ line ++ ['\n'] }
  else
    if (parseComment line).isPath then
      seedComment (setCurrentPath (savePrevBlock s) ((parseComment line).path.getD []))
        (parseComment line).comment
    else
      match s.currentPath with
      | some _ => { s with currentContent := s.currentContent ++ [line] }
      | none => s

/-- Save of the last block after the loop (extractor.ts:228-234). -/
def finalizeScan (s : ScanState) : List CodeBlock :=
  match s.currentPath with
  | some cp =>
    if s.currentContent.isEmpty then s.blocks
    else s.blocks ++ [CodeBlock.mk cp (trimChars (joinWith '\n' s.currentContent))]
  | none => s.blocks

/-- `CodeExtractor.splitIntoCodeBlocks` (extractor.ts:173-237). -/
def splitIntoCodeBlocks (content : Str) : List CodeBlock :=
  finalizeScan (List.foldl scanLine initScanState (splitOnChar '\n' content))

/-! Language detection (extractor.ts:43-66, 293-308). -/

def LANGUAGE_EXTENSIONS : List (Str × Str) :=
  [ (str "typescript", str ".ts"), (str "javascript", str ".js"),
    (str "python", str ".py"), (str "java", str ".java"),
    (str "cpp", str ".cpp"), (str "c++", str ".cpp"),
    (str "c#", str ".cs"), (str "rust", str ".rs"),
    (str "go", str ".go"), (str "ruby", str ".rb"),
    (str "php", str ".php"), (str "html", str ".html"),
    (str "css", str ".css"), (str "sql", str ".sql"),
    (str "yaml", str ".yml"), (str "json", str ".json"),
    (str "xml", str ".xml"), (str "markdown", str ".md"),
    (str "shell", str ".sh"), (str "bash", str ".sh"),
    (str "zsh", str ".sh"), (str "powershell", str ".ps1") ]

def findLangByExt : List (Str × Str) → Str → Str
  | [], _ => str "txt"
  | (lang, lext) :: rest, e => if lext = '.' :: e then lang else findLangByExt rest e

/-- `CodeExtractor.detectLanguageFromPath` (extractor.ts:293-299). -/
def detectLanguageFromPath (filePath : Str) : Str :=
  findLangByExt LANGUAGE_EXTENSIONS ((extnameOf filePath).drop 1)

/-- `CodeExtractor.detectLanguage` content sniffing (extractor.ts:301-308). -/
def detectLanguage (content : Str) : Str :=
  if containsSubstr content (str "import \x7b useState \x7d") then str "typescript"
  else if containsSubstr content (str "def ") then str "python"
  else if containsSubstr content (str "public class ") then str "java"
  else if containsSubstr content (str "<?php") then str "php"
  else if containsSubstr content (str "<!DOCTYPE html>") then str "html"
  else str "txt"

/-- JS `a || b` for an optional string `a` (empty string is falsy). -/
def orElseStr (a : Option Str) (b : Str) : Str :=
  match a with
  | some l => if l.isEmpty then b else l
  | none => b

/-- `CodeExtractor.processCodeBlock` (extractor.ts:238-252). -/
def processCodeBlock (outputDir : Str) (block : CodeBlock)
    (defaultLanguage : Option Str) : FileMetadata :=
  let filePath := joinPath outputDir block.path
  let language := orElseStr defaultLanguage (detectLanguageFromPath block.path)
  ⟨language, basenameOf filePath, filePath, block.content, str "code-block"⟩

/-! `ARTIFACT_REGEX` and `ARTIFACT_ATTRS_REGEX` scans (extractor.ts:68-70,
103-126). -/

structure ArtifactMatch where
  full : Str
  inner : Str
deriving DecidableEq, Repr

/-- Split `s` at the first occurrence of `sub`: `some (before, after)`. -/
def splitAtSub : Str → Str → Option (Str × Str)
  | s, sub =>
    if startsWithChars s sub then some ([], s.drop sub.length)
    else
      match s with
      | [] => none
      | c :: r =>
        match splitAtSub r sub with
        | some (b, a) => some (c :: b, a)
        | none => none

/-- One match of `/<antArtifact[^>]*>([\s\S]*?)<\/antArtifact>/`: the opening
tag runs to the first `>` after `<antArtifact`, the lazy inner group runs to
the first closing tag. -/
def artifactStep (s : Str) : Option (ArtifactMatch × Str) :=
  match splitAtSub s (str "<antArtifact") with
  | none => none
  | some (_, afterOpen) =>
    let attrsPart := afterOpen.takeWhile (· ≠ '>')
    match afterOpen.dropWhile (· ≠ '>') with
    | '>' :: rest =>
      (match splitAtSub rest (str "</antArtifact>") with
       | some (inner, remaining) =>
         some (⟨str "<antArtifact" ++ attrsPart ++ '>' :: inner ++ str "</antArtifact>",
                inner⟩, remaining)
       | none => none)
    | _ => none

/-- The `while exec` loop over `ARTIFACT_REGEX`, with explicit fuel so the
definition is structural (each step consumes at least the opening tag, see
`artifactStep_shrink`, so `s.length + 1` steps always suffice). -/
def artifactScanFuel : Nat → Str → List ArtifactMatch
  | 0, _ => []
  | fuel + 1, s =>
    match artifactStep s with
    | none => []
    | some (m, rem) => m :: artifactScanFuel fuel rem

/-- The `while exec` loop over `ARTIFACT_REGEX` (extractor.ts:104-126). -/
def artifactScan (s : Str) : List ArtifactMatch :=
  artifactScanFuel (s.length + 1) s

/-- The `while exec` loop over `ARTIFACT_ATTRS_REGEX` `/(\w+)="([^"]*?)"/g`
(extractor.ts:109-112), collected as ordered pairs.  At a word character a
match is attempted: the greedy name run, then `="`, then the lazy value run up
to the next quote; on failure the scan advances one position, which yields the
same match sequence as the leftmost search of the regex engine. -/
def scanAttrsFuel : Nat → Str → List (Str × Str)
  | 0, _ => []
  | fuel + 1, s =>
    match s with
    | [] => []
    | c :: rest =>
      if isWordChar c then
        let w := c :: rest.takeWhile isWordChar
        let r1 := rest.dropWhile isWordChar
        if startsWithChars r1 (str "=\"") then
          let r2 := r1.drop 2
          let v := r2.takeWhile (· ≠ '"')
          let r3 := r2.dropWhile (· ≠ '"')
          if r3.isEmpty then scanAttrsFuel fuel rest
          else (w, v) :: scanAttrsFuel fuel (r3.drop 1)
        else scanAttrsFuel fuel rest
      else scanAttrsFuel fuel rest

/-- The attribute scan over a whole matched span; every recursive step drops
at least one character, so `s.length + 1` units of fuel always suffice. -/
def scanAttrs (s : Str) : List (Str × Str) :=
  scanAttrsFuel (s.length + 1) s

/-- Assignment `attributes[name] = value` with later pairs overwriting
(extractor.ts:111). -/
def lookupAttr (pairs : List (Str × Str)) (name : Str) : Option Str :=
  match pairs with
  | [] => none
  | (n, v) :: rest =>
    match lookupAttr rest name with
    | some v2 => some v2
    | none => if n = name then some v else none

/-- `attributes.type?.includes('code') || attributes.type?.includes('html')`
(extractor.ts:114). -/
def typeMatches (attrs : List (Str × Str)) : Bool :=
  match lookupAttr attrs (str "type") with
  | some t => containsSubstr t (str "code") || containsSubstr t (str "html")
  | none => false

/-! `extractFiles` (extractor.ts:89-129). -/

/-- The shared dedup body of both loops: push the record and remember its
resolved path unless the path was already processed.  The accumulator is
(`files`, `processedPaths`). -/
def dedupPass : List FileMetadata → List FileMetadata × List Str →
    List FileMetadata × List Str
  | [], acc => acc
  | f :: rest, acc =>
    if f.filePath ∈ acc.2 then dedupPass rest acc
    else dedupPass rest (acc.1 ++ [f], f.filePath :: acc.2)

/-- The records produced by the first loop (direct code blocks,
extractor.ts:93-101), in document order, before dedup. -/
def directInfos (content outputDir : Str) : List FileMetadata :=
  (splitIntoCodeBlocks content).map (fun b => processCodeBlock outputDir b none)

/-- The records one artifact span contributes (extractor.ts:114-125): nothing
unless the `type` attribute value contains "code" or "html"; otherwise every
block of the inner text, with the span's language hint (explicit `language`
attribute if present and non-empty, else content sniffing).  Attributes are
scanned over the whole matched span (`match[0]`), exactly as the source does. -/
def artifactSpanInfos (outputDir : Str) (m : ArtifactMatch) : List FileMetadata :=
  if typeMatches (scanAttrs m.full) then
    (splitIntoCodeBlocks m.inner).map fun b =>
      processCodeBlock outputDir b
        (some (orElseStr (lookupAttr (scanAttrs m.full) (str "language"))
          (detectLanguage m.inner)))
  else []

/-- The records produced by the artifact loop (extractor.ts:103-126), in
document order, before dedup. -/
def artifactInfos (content outputDir : Str) : List FileMetadata :=
  (artifactScan content).flatMap (artifactSpanInfos outputDir)

/-- `CodeExtractor.extractFiles` (extractor.ts:89-129). -/
def extractFiles (content outputDir : Str) : List FileMetadata :=
  (dedupPass (artifactInfos content outputDir)
    (dedupPass (directInfos content outputDir) ([], []))).1

/-- The whole pre-dedup record stream in processing order: direct records
first, then artifact records. -/
def allInfos (content outputDir : Str) : List FileMetadata :=
  directInfos content outputDir ++ artifactInfos content outputDir

/-! Definitions taken from the spec's words (not from the source), used to
compare spec statements against the code. -/

/-- Modelled from the spec: "one or more word-character/hyphen segments
separated by forward slashes ending in a dot-extension" (claim C1's shape). -/
def specPathShape (p : Str) : Bool :=
  let stem := p.takeWhile (· ≠ '.')
  match p.dropWhile (· ≠ '.') with
  | '.' :: ext =>
    !ext.isEmpty && ext.all isWordChar &&
      (splitOnChar '/' stem).all (fun seg => !seg.isEmpty && seg.all isWordHyphen)
  | _ => false

/-- Modelled from the spec: the Path Validator acceptance condition exactly as
claim C1 words it. -/
def isValidPathSpec (p : Str) : Bool :=
  specPathShape p &&
    !containsSubstr p (str "..") &&
    !startsWithSlash p &&
    !containsSubstr p (str "\\")

/-- Modelled from the spec: "a line consisting solely of a fence marker: three
backticks optionally followed by a language tag and nothing else" (claim C7). -/
def soleFenceMarker (l : Str) : Bool :=
  let t := trimChars l
  startsWithChars t (str "```") && (t.drop 3).all isWordChar

/-- The declarative form of the shape accepted by `^[\w-]+\/[\w slash -]+\.\w+$`:
a nonempty word/hyphen first segment, a slash, a nonempty run of word, slash or
hyphen characters, a dot, and a nonempty word extension. -/
def RegexShape (p : Str) : Prop :=
  ∃ s1 mid ext, p = s1 ++ '/' :: (mid ++ '.' :: ext) ∧
    s1 ≠ [] ∧ s1.all isWordHyphen = true ∧
    mid ≠ [] ∧ mid.all isWordSlashHyphen = true ∧
    ext ≠ [] ∧ ext.all isWordChar = true

/-- No pattern of `PATH_PATTERNS` both matches the (trimmed) line and captures
a path that passes `isValidPath`. -/
def noValidPattern (l : Str) : Prop :=
  (∀ p d, execP1 l = some (p, d) → isValidPath p = false) ∧
  (∀ p, execP2 l = some p → isValidPath p = false) ∧
  (∀ p, execP3 l = some p → isValidPath p = false)

/-! General helper lemmas. -/

/-! The next three lemmas record why the fuel bounds of `artifactScanFuel` and
`scanAttrsFuel` are large enough: every successful `artifactStep` strictly
shrinks the remaining text. -/

theorem startsWithChars_length {s pre : Str} (h : startsWithChars s pre = true) :
    pre.length ≤ s.length := by
  induction pre generalizing s with
  | nil => simp
  | cons p ps ih =>
    cases s with
    | nil => simp [startsWithChars] at h
    | cons c cs =>
      simp only [startsWithChars, Bool.and_eq_true] at h
      have := ih h.2
      simp only [List.length_cons]
      omega

theorem splitAtSub_length {s sub b a : Str} (h : splitAtSub s sub = some (b, a)) :
    a.length + sub.length ≤ s.length := by
  induction s generalizing b a with
  | nil =>
    rw [splitAtSub] at h
    by_cases hs : startsWithChars [] sub = true
    · rw [if_pos hs] at h
      have hle := startsWithChars_length hs
      injection h with h1
      injection h1 with hb ha
      subst ha
      simp only [List.drop_nil, List.length_nil, Nat.zero_add, List.length_nil] at *
      omega
    · rw [if_neg hs] at h
      cases h
  | cons c r ih =>
    rw [splitAtSub] at h
    by_cases hs : startsWithChars (c :: r) sub = true
    · rw [if_pos hs] at h
      have hle := startsWithChars_length hs
      injection h with h1
      injection h1 with hb ha
      subst ha
      simp only [List.length_drop]
      omega
    · rw [if_neg hs] at h
      cases hm : splitAtSub r sub with
      | none => rw [hm] at h; cases h
      | some pr =>
        obtain ⟨b0, a0⟩ := pr
        rw [hm] at h
        injection h with h1
        injection h1 with hb ha
        subst ha
        have := ih hm
        simp only [List.length_cons]
        omega

theorem artifactStep_shrink {s : Str} {m : ArtifactMatch} {rem : Str}
    (h : artifactStep s = some (m, rem)) : rem.length < s.length := by
  unfold artifactStep at h
  split at h
  · cases h
  · next b1 afterOpen heq1 =>
    split at h
    · next rest heq2 =>
      split at h
      · next inner remaining heq3 =>
        injection h with h1
        have hrem : rem = remaining := by
          have := congrArg Prod.snd h1
          simpa using this.symm
        subst hrem
        have l1 := splitAtSub_length heq1
        have l3 := splitAtSub_length heq3
        have l2 : ('>' :: rest).length ≤ afterOpen.length := by
          rw [← heq2]
          exact (List.dropWhile_sublist _).length_le
        have e1 : (str "<antArtifact").length = 12 := by decide
        have e3 : (str "</antArtifact>").length = 14 := by decide
        simp only [List.length_cons] at l2
        omega
      · cases h
    · cases h


theorem dropWhile_dropWhile_same (f : Char → Bool) (l : Str) :
    (l.dropWhile f).dropWhile f = l.dropWhile f := by
  induction l with
  | nil => rfl
  | cons a t ih =>
    by_cases h : f a = true
    · simp only [List.dropWhile_cons, h, if_true]
      exact ih
    · simp [List.dropWhile_cons, h]

theorem trimLeftChars_idem (l : Str) : trimLeftChars (trimLeftChars l) = trimLeftChars l :=
  dropWhile_dropWhile_same isSpaceChar l

theorem trimRightChars_idem (l : Str) :
    trimRightChars (trimRightChars l) = trimRightChars l := by
  unfold trimRightChars
  rw [List.reverse_reverse, dropWhile_dropWhile_same]

theorem trimRightChars_cons (a : Char) (l : Str) :
    trimRightChars (a :: l) =
      if (trimRightChars l).isEmpty then (if isSpaceChar a then [] else [a])
      else a :: trimRightChars l := by
  unfold trimRightChars
  rw [List.reverse_cons, List.dropWhile_append]
  by_cases h : ((l.reverse).dropWhile isSpaceChar).isEmpty
  · rw [if_pos h]
    have h2 : ((l.reverse).dropWhile isSpaceChar).reverse.isEmpty = true := by
      simp only [List.isEmpty_iff] at h ⊢
      simp [h]
    rw [if_pos h2]
    by_cases ha : isSpaceChar a = true
    · simp [List.dropWhile, ha]
    · simp [List.dropWhile, ha]
  · rw [if_neg h]
    have h2 : ¬ ((l.reverse).dropWhile isSpaceChar).reverse.isEmpty = true := by
      simp only [List.isEmpty_iff] at h ⊢
      simpa using h
    rw [if_neg h2]
    simp

theorem trimLeft_trimRight_comm (l : Str) :
    trimLeftChars (trimRightChars l) = trimRightChars (trimLeftChars l) := by
  induction l with
  | nil => rfl
  | cons a t ih =>
    by_cases ha : isSpaceChar a = true
    · rw [trimRightChars_cons]
      by_cases he : (trimRightChars t).isEmpty
      · rw [if_pos he, if_pos ha]
        have ht : trimRightChars t = [] := by simpa [List.isEmpty_iff] using he
        have hl : trimLeftChars (a :: t) = trimLeftChars t := by
          simp [trimLeftChars, List.dropWhile_cons, ha]
        rw [hl, ← ih, ht]
      · rw [if_neg he]
        have hl : trimLeftChars (a :: t) = trimLeftChars t := by
          simp [trimLeftChars, List.dropWhile_cons, ha]
        have h1 : trimLeftChars (a :: trimRightChars t) = trimLeftChars (trimRightChars t) := by
          simp [trimLeftChars, List.dropWhile_cons, ha]
        rw [h1, hl, ih]
    · have hl : trimLeftChars (a :: t) = a :: t := by
        simp [trimLeftChars, List.dropWhile_cons, ha]
      rw [hl, trimRightChars_cons]
      by_cases he : (trimRightChars t).isEmpty
      · rw [if_pos he, if_neg ha]
        simp [trimLeftChars, List.dropWhile_cons, ha]
      · rw [if_neg he]
        simp [trimLeftChars, List.dropWhile_cons, ha]

theorem trimChars_idem (l : Str) : trimChars (trimChars l) = trimChars l := by
  unfold trimChars
  rw [trimLeft_trimRight_comm (trimLeftChars l), trimRightChars_idem,
    trimLeftChars_idem]

/-! Lemmas about single scan steps of the Block Segmenter. -/

theorem scanLine_in_fence (s : ScanState) (line : Str)
    (h1 : s.inCodeBlock = true)
    (h2 : startsWithChars (trimChars line) (str "```") = false) :
    scanLine s line = { s with codeBlockContent := s.codeBlockContent ++ line ++ ['\n'] } := by
  unfold scanLine
  rw [h2]
  simp [h1]

theorem scanLine_fence_toggles (s : ScanState) (line : Str)
    (h : startsWithChars (trimChars line) (str "```") = true) :
    (scanLine s line).inCodeBlock = !s.inCodeBlock := by
  unfold scanLine
  rw [h]
  by_cases hin : s.inCodeBlock = true
  · simp [hin]
  · simp only [Bool.not_eq_true] at hin
    simp [hin]

theorem savePrevBlock_keeps (s : ScanState) :
    (savePrevBlock s).currentPath = s.currentPath ∧
      (savePrevBlock s).inCodeBlock = s.inCodeBlock ∧
      (savePrevBlock s).codeBlockContent = s.codeBlockContent := by
  unfold savePrevBlock
  repeat' split
  all_goals exact ⟨rfl, rfl, rfl⟩

theorem seedComment_keeps (s : ScanState) (co : Option Str) :
    (seedComment s co).currentPath = s.currentPath ∧
      (seedComment s co).inCodeBlock = s.inCodeBlock ∧
      (seedComment s co).codeBlockContent = s.codeBlockContent := by
  unfold seedComment
  repeat' split
  all_goals exact ⟨rfl, rfl, rfl⟩

theorem scanLine_outside_keeps_state (s : ScanState) (line : Str)
    (h : startsWithChars (trimChars line) (str "```") = false)
    (hin : s.inCodeBlock = false) :
    (scanLine s line).inCodeBlock = false := by
  unfold scanLine
  rw [h]
  simp only [hin, Bool.false_eq_true, if_false]
  repeat' split
  all_goals first
    | rfl
    | exact hin
    | (rw [(seedComment_keeps _ _).2.1]
       show (savePrevBlock s).inCodeBlock = false
       rw [(savePrevBlock_keeps s).2.1]
       exact hin)

theorem setCurrentPath_blocks (s : ScanState) (p : Str) :
    (setCurrentPath s p).blocks = s.blocks := rfl

theorem seedComment_blocks (s : ScanState) (co : Option Str) :
    (seedComment s co).blocks = s.blocks := by
  unfold seedComment
  repeat' split
  all_goals rfl

theorem savePrevBlock_blocks_shape (s : ScanState) :
    (savePrevBlock s).blocks = s.blocks ∨
    ∃ cp, (savePrevBlock s).blocks =
      s.blocks ++ [CodeBlock.mk cp (trimChars (joinWith '\n' s.currentContent))] := by
  unfold savePrevBlock
  repeat' split
  all_goals first
    | (left; rfl)
    | (right; exact ⟨_, rfl⟩)

theorem scanLine_blocks_shape (s : ScanState) (line : Str) :
    (scanLine s line).blocks = s.blocks ∨
    ∃ cp, (scanLine s line).blocks =
      s.blocks ++ [CodeBlock.mk cp (trimChars (joinWith '\n' s.currentContent))] := by
  unfold scanLine
  repeat' split
  all_goals try (left; rfl)
  all_goals rw [seedComment_blocks, setCurrentPath_blocks]
  all_goals exact savePrevBlock_blocks_shape s

theorem finalizeScan_shape (s : ScanState) :
    finalizeScan s = s.blocks ∨
    ∃ cp, finalizeScan s =
      s.blocks ++ [CodeBlock.mk cp (trimChars (joinWith '\n' s.currentContent))] := by
  unfold finalizeScan
  repeat' split
  all_goals first
    | (left; rfl)
    | (right; exact ⟨_, rfl⟩)

theorem scan_blocks_trimmed (lines : List Str) :
    ∀ s : ScanState, (∀ b ∈ s.blocks, trimChars b.content = b.content) →
    ∀ b ∈ (List.foldl scanLine s lines).blocks, trimChars b.content = b.content := by
  induction lines with
  | nil => intro s hs b hb; exact hs b hb
  | cons l rest ih =>
    intro s hs b hb
    rw [List.foldl_cons] at hb
    refine ih (scanLine s l) ?_ b hb
    intro b2 hb2
    rcases scanLine_blocks_shape s l with heq | ⟨cp, heq⟩
    · exact hs b2 (heq ▸ hb2)
    · rw [heq, List.mem_append, List.mem_singleton] at hb2
      rcases hb2 with h2 | h2
      · exact hs b2 h2
      · rw [h2]
        exact trimChars_idem _

/-! Claim theorems about the Block Segmenter. -/

/-- C6: while `insideFencedBlock` is true, a non-fence-marker line is appended
raw (plus newline) to the in-progress fenced buffer and nothing else changes:
the Comment Classifier result is never consulted, so no line inside a fence is
classified as a path declaration (blocks, currentPath and currentContent are
untouched whatever the line looks like). -/
theorem fence_lines_append_raw (s : ScanState) (line : Str)
    (h1 : s.inCodeBlock = true)
    (h2 : startsWithChars (trimChars line) (str "```") = false) :
    scanLine s line = { s with codeBlockContent := s.codeBlockContent ++ line ++ ['\n'] } :=
  scanLine_in_fence s line h1 h2

theorem fence_lines_append_raw_witness :
    scanLine (ScanState.mk [] (some (str "a/b.ts")) [] true (str "x\n")) (str "// c/d.ts") =
      ScanState.mk [] (some (str "a/b.ts")) [] true (str "x\n// c/d.ts\n") :=
  fence_lines_append_raw
    (ScanState.mk [] (some (str "a/b.ts")) [] true (str "x\n")) (str "// c/d.ts")
    rfl (by decide)

/-- C7 counterexample: the line consisting of three backticks followed by
text that is not a language tag is not solely a fence marker in the sense of
the claim, yet the scanner toggles `insideFencedBlock` on it. -/
theorem fence_toggle_counterexample :
    soleFenceMarker (str "``` x y") = false ∧
      (scanLine initScanState (str "``` x y")).inCodeBlock = true ∧
      initScanState.inCodeBlock = false := by
  refine ⟨by decide, by decide, rfl⟩

/-- C7 (amended): a line toggles `insideFencedBlock` if and only if its
trimmed form starts with three backticks, whatever follows them; a line with
trailing text after the backticks still toggles the state. -/
theorem fence_toggle_iff (s : ScanState) (line : Str) :
    (scanLine s line).inCodeBlock ≠ s.inCodeBlock ↔
      startsWithChars (trimChars line) (str "```") = true := by
  by_cases hm : startsWithChars (trimChars line) (str "```") = true
  · rw [scanLine_fence_toggles s line hm]
    simp only [hm, iff_true]
    cases s.inCodeBlock <;> simp
  · have hm2 : startsWithChars (trimChars line) (str "```") = false := by
      simpa using hm
    by_cases hin : s.inCodeBlock = true
    · rw [scanLine_in_fence s line hin hm2]
      simp [hm2]
    · have hin2 : s.inCodeBlock = false := by simpa using hin
      rw [scanLine_outside_keeps_state s line hm2 hin2, hin2]
      simp [hm2]

theorem fence_toggle_iff_witness :
    ((scanLine initScanState (str "```ts")).inCodeBlock ≠ initScanState.inCodeBlock ↔
      startsWithChars (trimChars (str "```ts")) (str "```") = true) :=
  fence_toggle_iff initScanState (str "```ts")

/-- C8 counterexample: a declared path followed by a blank line and then a new
path declaration is finalized from the accumulated blank line, producing a
Fragment whose content is empty — refuting the claim that every emitted
Fragment has non-empty content. -/
theorem empty_fragment_counterexample :
    splitIntoCodeBlocks (str "// a/b.ts\n\n// c/d.ts\nx") =
      [CodeBlock.mk (str "a/b.ts") [], CodeBlock.mk (str "c/d.ts") (str "x")] := by
  decide

/-- C8 (amended): a previously declared path is finalized (on a new path
declaration or at end of input) only when at least one line has been
accumulated, and the emitted content is the trimmed join of those lines — so
every emitted Fragment has trimmed content, but the content may be empty when
only blank lines were accumulated. -/
theorem fragments_content_trimmed (c : Str) (b : CodeBlock)
    (hb : b ∈ splitIntoCodeBlocks c) : trimChars b.content = b.content := by
  unfold splitIntoCodeBlocks at hb
  rcases finalizeScan_shape (List.foldl scanLine initScanState (splitOnChar '\n' c)) with
    heq | ⟨cp, heq⟩
  · rw [heq] at hb
    exact scan_blocks_trimmed _ initScanState (by intro b2 hb2; cases hb2) b hb
  · rw [heq, List.mem_append, List.mem_singleton] at hb
    rcases hb with h2 | h2
    · exact scan_blocks_trimmed _ initScanState (by intro b2 hb2; cases hb2) b h2
    · rw [h2]
      exact trimChars_idem _

theorem fragments_content_trimmed_witness :
    trimChars (CodeBlock.mk (str "c/d.ts") (str "x")).content =
      (CodeBlock.mk (str "c/d.ts") (str "x")).content :=
  fragments_content_trimmed (str "// a/b.ts\n\n// c/d.ts\nx")
    (CodeBlock.mk (str "c/d.ts") (str "x")) (by decide)

/-- C10: when the scan is inside a fenced block and no later line closes the
fence, the remaining lines change nothing but the fenced buffer: the blocks
list, the current path and the accumulator are untouched and the final output
equals what it would be at that point, so the buffered content of the unclosed
fenced block is discarded and never appears in any emitted Fragment. -/
theorem unclosed_fence_discarded (s : ScanState) (tail : List Str)
    (h1 : s.inCodeBlock = true)
    (h2 : ∀ l ∈ tail, startsWithChars (trimChars l) (str "```") = false) :
    finalizeScan (List.foldl scanLine s tail) = finalizeScan s ∧
      (List.foldl scanLine s tail).blocks = s.blocks ∧
      (List.foldl scanLine s tail).currentPath = s.currentPath ∧
      (List.foldl scanLine s tail).currentContent = s.currentContent := by
  induction tail generalizing s with
  | nil => exact ⟨rfl, rfl, rfl, rfl⟩
  | cons l rest ih =>
    have hstep := scanLine_in_fence s l h1 (h2 l (List.mem_cons_self l rest))
    rw [List.foldl_cons, hstep]
    have ihr := ih { s with codeBlockContent := s.codeBlockContent ++ l ++ ['\n'] }
      h1 (fun x hx => h2 x (List.mem_cons_of_mem l hx))
    refine ⟨?_, ihr.2.1, ihr.2.2.1, ihr.2.2.2⟩
    rw [ihr.1]
    unfold finalizeScan
    rfl

theorem unclosed_fence_discarded_witness :
    finalizeScan (List.foldl scanLine
        (ScanState.mk [] (some (str "a/b.ts")) [str "x"] true (str "buf\n"))
        [str "leftover", str "more"]) =
      finalizeScan (ScanState.mk [] (some (str "a/b.ts")) [str "x"] true (str "buf\n")) ∧
    (List.foldl scanLine
        (ScanState.mk [] (some (str "a/b.ts")) [str "x"] true (str "buf\n"))
        [str "leftover", str "more"]).blocks = [] ∧
    (List.foldl scanLine
        (ScanState.mk [] (some (str "a/b.ts")) [str "x"] true (str "buf\n"))
        [str "leftover", str "more"]).currentPath = some (str "a/b.ts") ∧
    (List.foldl scanLine
        (ScanState.mk [] (some (str "a/b.ts")) [str "x"] true (str "buf\n"))
        [str "leftover", str "more"]).currentContent = [str "x"] :=
  unclosed_fence_discarded
    (ScanState.mk [] (some (str "a/b.ts")) [str "x"] true (str "buf\n"))
    [str "leftover", str "more"] rfl (by decide)

/-- C5: the document consisting of one `@file utils/x.py` directive line
followed by a fenced block containing the single line `def f(): pass` yields,
for every output directory, exactly one FileRecord: resolved path = output
directory joined with `utils/x.py`, language `python`, content exactly
`def f(): pass`. -/
theorem end_to_end_utils_x_py (outputDir : Str) :
    extractFiles (str "// @file utils/x.py\n```python\ndef f(): pass\n```") outputDir =
      [FileMetadata.mk (str "python")
        (basenameOf (joinPath outputDir (str "utils/x.py")))
        (joinPath outputDir (str "utils/x.py"))
        (str "def f(): pass") (str "code-block")] := by rfl

theorem end_to_end_utils_x_py_witness :
    extractFiles (str "// @file utils/x.py\n```python\ndef f(): pass\n```") (str "out") =
      [FileMetadata.mk (str "python")
        (basenameOf (joinPath (str "out") (str "utils/x.py")))
        (joinPath (str "out") (str "utils/x.py"))
        (str "def f(): pass") (str "code-block")] :=
  end_to_end_utils_x_py (str "out")

/-! The Comment Classifier: any path classification carries a validated path
(claims C4 and C9). -/

theorem plainCommentOf_path (l : Str) : (plainCommentOf l).path = none := rfl

theorem plainCommentOf_isPath (l : Str) : (plainCommentOf l).isPath = false := rfl

theorem parseP3_path_valid {l p : Str} (h : (parseP3 l).path = some p) :
    isValidPath p = true := by
  rw [parseP3] at h
  cases hx : execP3 l with
  | none =>
    simp only [hx, plainCommentOf_path] at h
    exact Option.noConfusion h
  | some q =>
    simp only [hx] at h
    by_cases hv : isValidPath q = true
    · simp only [hv, if_true] at h
      injection h with h2
      rw [← h2]
      exact hv
    · simp only [hv, if_false, plainCommentOf_path] at h
      exact absurd h (by simp [plainCommentOf])

theorem parseP3_isPath_some {l : Str} (h : (parseP3 l).isPath = true) :
    ∃ p, (parseP3 l).path = some p := by
  rw [parseP3] at h ⊢
  cases hx : execP3 l with
  | none =>
    simp only [hx, plainCommentOf_isPath] at h
    exact absurd h (by simp)
  | some q =>
    simp only [hx] at h ⊢
    by_cases hv : isValidPath q = true
    · simp [hv]
    · simp only [hv, if_false, plainCommentOf_isPath] at h
      exact absurd h (by simp [plainCommentOf])

theorem parseP2_path_valid {l p : Str} (h : (parseP2 l).path = some p) :
    isValidPath p = true := by
  rw [parseP2] at h
  cases hx : execP2 l with
  | none =>
    simp only [hx] at h
    exact parseP3_path_valid h
  | some q =>
    simp only [hx] at h
    by_cases hv : isValidPath q = true
    · simp only [hv, if_true] at h
      injection h with h2
      rw [← h2]
      exact hv
    · simp only [hv, if_false] at h
      exact parseP3_path_valid h

theorem parseP2_isPath_some {l : Str} (h : (parseP2 l).isPath = true) :
    ∃ p, (parseP2 l).path = some p := by
  rw [parseP2] at h ⊢
  cases hx : execP2 l with
  | none =>
    simp only [hx] at h ⊢
    exact parseP3_isPath_some h
  | some q =>
    simp only [hx] at h ⊢
    by_cases hv : isValidPath q = true
    · simp [hv]
    · simp only [hv, if_false] at h ⊢
      exact parseP3_isPath_some h

theorem parseComment_path_valid {line p : Str}
    (h : (parseComment line).path = some p) : isValidPath p = true := by
  rw [parseComment] at h
  by_cases hs : startsWithChars (trimChars line) (str "//") = true
  · simp only [hs, if_true] at h
    cases hx : execP1 (trimChars line) with
    | none =>
      simp only [hx] at h
      exact parseP2_path_valid h
    | some pr =>
      obtain ⟨q, d⟩ := pr
      simp only [hx] at h
      by_cases hv : isValidPath q = true
      · simp only [hv, if_true] at h
        injection h with h2
        rw [← h2]
        exact hv
      · simp only [hv, if_false] at h
        exact parseP2_path_valid h
  · simp only [hs, if_false] at h
    exact absurd h (by simp)

theorem parseComment_isPath_some {line : Str}
    (h : (parseComment line).isPath = true) :
    ∃ p, (parseComment line).path = some p := by
  rw [parseComment] at h ⊢
  by_cases hs : startsWithChars (trimChars line) (str "//") = true
  · simp only [hs, if_true] at h ⊢
    cases hx : execP1 (trimChars line) with
    | none =>
      simp only [hx] at h ⊢
      exact parseP2_isPath_some h
    | some pr =>
      obtain ⟨q, d⟩ := pr
      simp only [hx] at h ⊢
      by_cases hv : isValidPath q = true
      · simp [hv]
      · simp only [hv, if_false] at h ⊢
        exact parseP2_isPath_some h
  · simp only [hs, if_false] at h
    exact absurd h (by simp)

/-- C9: the extraction pipeline is total by construction (every function of
this embedding is a total Lean definition), and the non-null assertion
`parsedComment.path!` inside the Segmenter is always sound: whenever the
Comment Classifier classifies a line as a path declaration, the result carries
a path, and that path passed `isValidPath`. -/
theorem path_classification_total (line : Str)
    (h : (parseComment line).isPath = true) :
    ∃ p, (parseComment line).path = some p ∧ isValidPath p = true := by
  obtain ⟨p, hp⟩ := parseComment_isPath_some h
  exact ⟨p, hp, parseComment_path_valid hp⟩

theorem path_classification_total_witness :
    ∃ p, (parseComment (str "// a/b.ts")).path = some p ∧ isValidPath p = true :=
  path_classification_total (str "// a/b.ts") (by decide)

/-- C4: for a trimmed line beginning with the comment marker, (a) any path the
Comment Classifier returns passed validation (an unvalidated captured path is
never promoted); (b) when pattern 1 matches but its captured path fails
validation, classification falls through: if pattern 2 matches with a valid
path, that pattern wins; (c) when no pattern both matches and validates, the
result is a plain-comment classification whose comment is the text of the
line after the marker, trimmed. -/
theorem invalid_path_not_promoted (line : Str)
    (h : startsWithChars (trimChars line) (str "//") = true) :
    (∀ p, (parseComment line).path = some p → isValidPath p = true) ∧
    (∀ p d p2, execP1 (trimChars line) = some (p, d) → isValidPath p = false →
      execP2 (trimChars line) = some p2 → isValidPath p2 = true →
      parseComment line = ⟨true, some p2, none⟩) ∧
    (noValidPattern (trimChars line) →
      parseComment line = ⟨false, none, some (trimChars ((trimChars line).drop 2))⟩) := by
  refine ⟨fun p hp => parseComment_path_valid hp, ?_, ?_⟩
  · intro p d p2 h1 hv1 h2 hv2
    rw [parseComment, if_pos h, h1]
    simp only [hv1, Bool.false_eq_true, if_false]
    rw [parseP2, h2]
    simp [hv2]
  · intro hnv
    obtain ⟨hn1, hn2, hn3⟩ := hnv
    have e3 : parseP3 (trimChars line) = plainCommentOf (trimChars line) := by
      rw [parseP3]
      cases hx : execP3 (trimChars line) with
      | none => rfl
      | some q => simp [hn3 q hx]
    have e2 : parseP2 (trimChars line) = plainCommentOf (trimChars line) := by
      rw [parseP2]
      cases hx : execP2 (trimChars line) with
      | none => exact e3
      | some q => simp [hn2 q hx, e3]
    rw [parseComment, if_pos h]
    cases hx : execP1 (trimChars line) with
    | none => exact e2
    | some pr =>
      obtain ⟨q, d⟩ := pr
      simp [hn1 q d hx, e2, plainCommentOf]

theorem invalid_path_not_promoted_witness :
    parseComment (str "// hello world") =
      ⟨false, none, some (str "hello world")⟩ := by
  have h1 : execP1 (trimChars (str "// hello world")) = none := by decide
  have h2 : execP2 (trimChars (str "// hello world")) = none := by decide
  have h3 : execP3 (trimChars (str "// hello world")) = none := by decide
  exact (invalid_path_not_promoted (str "// hello world") (by decide)).2.2
    ⟨(fun p d hc => by rw [h1] at hc; exact Option.noConfusion hc),
     (fun p hc => by rw [h2] at hc; exact Option.noConfusion hc),
     (fun p hc => by rw [h3] at hc; exact Option.noConfusion hc)⟩

/-! The Path Validator versus the regular expression shape (claim C1). -/

theorem takeWhile_all_self (f : Char → Bool) (l : Str) :
    (l.takeWhile f).all f = true := by
  induction l with
  | nil => rfl
  | cons a t ih =>
    by_cases h : f a = true
    · simp [List.takeWhile_cons, h, ih]
    · simp [List.takeWhile_cons, h]

theorem takeWhile_append_of_all {f : Char → Bool} {a r : Str} {c : Char}
    (ha : a.all f = true) (hc : f c = false) :
    (a ++ c :: r).takeWhile f = a ∧ (a ++ c :: r).dropWhile f = c :: r := by
  induction a with
  | nil => simp [List.takeWhile_cons, List.dropWhile_cons, hc]
  | cons x xs ih =>
    simp only [List.all_cons, Bool.and_eq_true] at ha
    obtain ⟨hx, hxs⟩ := ha
    obtain ⟨iht, ihd⟩ := ih hxs
    constructor
    · simp [List.takeWhile_cons, hx, iht]
    · simp [List.dropWhile_cons, hx, ihd]

theorem startsWithChars_iff {s pre : Str} :
    startsWithChars s pre = true ↔ ∃ r, s = pre ++ r := by
  induction pre generalizing s with
  | nil => simp [startsWithChars]
  | cons p ps ih =>
    cases s with
    | nil =>
      simp only [startsWithChars, List.cons_append]
      constructor
      · intro h; cases h
      · rintro ⟨r, hr⟩; cases hr
    | cons c cs =>
      simp only [startsWithChars, Bool.and_eq_true, decide_eq_true_eq, ih,
        List.cons_append]
      constructor
      · rintro ⟨rfl, r, rfl⟩; exact ⟨r, rfl⟩
      · rintro ⟨r, hr⟩
        injection hr with h1 h2
        exact ⟨h1, r, h2⟩

theorem containsSubstr_iff {s sub : Str} :
    containsSubstr s sub = true ↔ ∃ u v, s = u ++ sub ++ v := by
  induction s with
  | nil =>
    rw [containsSubstr]
    simp only [Bool.or_false, startsWithChars_iff]
    constructor
    · rintro ⟨r, hr⟩; exact ⟨[], r, by simpa using hr⟩
    · rintro ⟨u, v, huv⟩
      have hu : u = [] := by
        cases u with
        | nil => rfl
        | cons x xs => cases huv
      subst hu
      exact ⟨v, by simpa using huv⟩
  | cons c cs ih =>
    rw [containsSubstr]
    simp only [Bool.or_eq_true, startsWithChars_iff, ih]
    constructor
    · rintro (⟨r, hr⟩ | ⟨u, v, huv⟩)
      · exact ⟨[], r, by simpa using hr⟩
      · exact ⟨c :: u, v, by simp [huv]⟩
    · rintro ⟨u, v, huv⟩
      cases u with
      | nil => exact Or.inl ⟨v, by simpa using huv⟩
      | cons x xs =>
        injection huv with h1 h2
        exact Or.inr ⟨xs, v, h2⟩

theorem all_not_mem {f : Char → Bool} {l : Str} {c : Char}
    (hl : l.all f = true) (hc : f c = false) : c ∉ l := by
  intro hm
  have := List.all_eq_true.mp hl c hm
  rw [this] at hc
  cases hc

theorem pathShapeTest_iff_shape (p : Str) :
    pathShapeTest p = true ↔ RegexShape p := by
  constructor
  · intro h
    simp only [pathShapeTest] at h
    cases hB : p.dropWhile isWordHyphen with
    | nil => rw [hB] at h; cases h
    | cons b r2 =>
      rw [hB] at h
      by_cases hb : b = '/'
      · subst hb
        simp only at h
        cases hC : r2.dropWhile isWordSlashHyphen with
        | nil => rw [hC] at h; cases h
        | cons cdot ext =>
          rw [hC] at h
          by_cases hcd : cdot = '.'
          · subst hcd
            simp only [Bool.and_eq_true, Bool.not_eq_eq_eq_not, Bool.not_true,
              List.isEmpty_eq_false] at h
            obtain ⟨⟨⟨hs1, hmid⟩, hext⟩, hall⟩ := h
            refine ⟨p.takeWhile isWordHyphen, r2.takeWhile isWordSlashHyphen, ext,
              ?_, ?_, takeWhile_all_self _ _, ?_, takeWhile_all_self _ _, ?_, hall⟩
            · conv_lhs => rw [← List.takeWhile_append_dropWhile (p := isWordHyphen) (l := p)]
              rw [hB]
              congr 1
              conv_lhs =>
                rw [← List.takeWhile_append_dropWhile (p := isWordSlashHyphen) (l := r2)]
              rw [hC]
            · intro he; rw [he] at hs1; cases hs1 rfl
            · intro he; rw [he] at hmid; cases hmid rfl
            · intro he; rw [he] at hext; cases hext rfl
          · split at h
            · next heq =>
              injection heq with hcd2 hrest
              exact absurd hcd2 hcd
            · exact Bool.noConfusion h
      · split at h
        · next heq =>
          injection heq with hb2 hrest
          exact absurd hb2 hb
        · exact Bool.noConfusion h
  · rintro ⟨s1, mid, ext, rfl, h1, h2, h3, h4, h5, h6⟩
    have hc1 : isWordHyphen '/' = false := by decide
    have hc2 : isWordSlashHyphen '.' = false := by decide
    obtain ⟨ht1, hd1⟩ := takeWhile_append_of_all (r := mid ++ '.' :: ext) h2 hc1
    obtain ⟨ht2, hd2⟩ := takeWhile_append_of_all (r := ext) h4 hc2
    simp only [pathShapeTest, hd1, ht1, hd2, ht2]
    simp [List.isEmpty_iff, h1, h3, h5, h6]

theorem shape_count_dot {p : Str} (h : RegexShape p) : p.count '.' = 1 := by
  obtain ⟨s1, mid, ext, rfl, h1, h2, h3, h4, h5, h6⟩ := h
  have hs1 : s1.count '.' = 0 :=
    List.count_eq_zero.mpr (all_not_mem h2 (by decide))
  have hmid : mid.count '.' = 0 :=
    List.count_eq_zero.mpr (all_not_mem h4 (by decide))
  have hext : ext.count '.' = 0 :=
    List.count_eq_zero.mpr (all_not_mem h6 (by decide))
  simp [List.count_append, List.count_cons, hs1, hmid, hext]

theorem shape_no_dotdot {p : Str} (h : RegexShape p) :
    containsSubstr p (str "..") = false := by
  by_contra hc
  have hc2 : containsSubstr p (str "..") = true := by
    cases hx : containsSubstr p (str "..") with
    | false => exact absurd hx hc
    | true => rfl
  obtain ⟨u, v, huv⟩ := containsSubstr_iff.mp hc2
  have hcount := shape_count_dot h
  rw [huv] at hcount
  have : (str "..").count '.' = 2 := by decide
  simp [List.count_append, this] at hcount
  omega

theorem shape_not_abs {p : Str} (h : RegexShape p) : startsWithSlash p = false := by
  obtain ⟨s1, mid, ext, rfl, h1, h2, h3, h4, h5, h6⟩ := h
  cases s1 with
  | nil => cases h1 rfl
  | cons x xs =>
    have hx : isWordHyphen x = true := by
      simp only [List.all_cons, Bool.and_eq_true] at h2
      exact h2.1
    by_cases hxe : x = '/'
    · rw [hxe] at hx
      exact absurd hx (by decide)
    · simp [startsWithSlash, hxe]

theorem shape_no_backslash {p : Str} (h : RegexShape p) :
    containsSubstr p (str "\\") = false := by
  obtain ⟨s1, mid, ext, rfl, h1, h2, h3, h4, h5, h6⟩ := h
  by_contra hc
  have hc2 : containsSubstr (s1 ++ '/' :: (mid ++ '.' :: ext)) (str "\\") = true := by
    cases hx : containsSubstr (s1 ++ '/' :: (mid ++ '.' :: ext)) (str "\\") with
    | false => exact absurd hx hc
    | true => rfl
  obtain ⟨u, v, huv⟩ := containsSubstr_iff.mp hc2
  have hm : '\\' ∈ s1 ++ '/' :: (mid ++ '.' :: ext) := by
    rw [huv]
    simp [str]
  simp only [List.mem_append, List.mem_cons] at hm
  rcases hm with hm | hm | hm | hm | hm
  · exact absurd (List.all_eq_true.mp h2 _ hm) (by decide)
  · cases hm
  · exact absurd (List.all_eq_true.mp h4 _ hm) (by decide)
  · cases hm
  · exact absurd (List.all_eq_true.mp h6 _ hm) (by decide)

/-- C1 counterexample: the claim's spec-worded acceptance condition and the
code disagree in both directions.  The single-segment path `a.txt` matches
the shape as the claim words it (one segment, no traversal, not absolute, no
backslash) but `isValidPath` rejects it; conversely `a//b.txt` (an empty
middle segment) fails the worded shape but `isValidPath` accepts it. -/
theorem path_validator_counterexample :
    (isValidPathSpec (str "a.txt") = true ∧ isValidPath (str "a.txt") = false) ∧
    (isValidPathSpec (str "a//b.txt") = false ∧ isValidPath (str "a//b.txt") = true) := by
  decide

/-- C1 (amended): `isValidPath` accepts exactly the strings of the form
`s1 ++ "/" ++ mid ++ "." ++ ext` where `s1` is a nonempty run of word/hyphen
characters, `mid` a nonempty run of word, slash or hyphen characters, and
`ext` a nonempty run of word characters (so at least two slash-separated
parts are required, and runs of consecutive slashes are permitted inside
`mid`); in particular any string containing `..`, starting with `/`, or
containing a backslash is rejected. -/
theorem path_validator_accepts_iff (p : Str) :
    (isValidPath p = true ↔ RegexShape p) ∧
    ((containsSubstr p (str "..") = true ∨ startsWithSlash p = true ∨
      containsSubstr p (str "\\") = true) → isValidPath p = false) := by
  constructor
  · constructor
    · intro h
      simp only [isValidPath, Bool.and_eq_true] at h
      exact (pathShapeTest_iff_shape p).mp h.1.1.1
    · intro hR
      have hshape := (pathShapeTest_iff_shape p).mpr hR
      simp [isValidPath, hshape, shape_no_dotdot hR, shape_not_abs hR,
        shape_no_backslash hR]
  · rintro (h | h | h) <;> simp [isValidPath, h]

theorem path_validator_accepts_iff_witness :
    ((isValidPath (str "a/b.ts") = true ↔ RegexShape (str "a/b.ts")) ∧
      ((containsSubstr (str "a/b.ts") (str "..") = true ∨
        startsWithSlash (str "a/b.ts") = true ∨
        containsSubstr (str "a/b.ts") (str "\\") = true) →
        isValidPath (str "a/b.ts") = false)) :=
  path_validator_accepts_iff (str "a/b.ts")

/-! The Extraction Coordinator dedup (claims C2 and C3). -/

theorem dedupPass_append (s1 s2 : List FileMetadata)
    (acc : List FileMetadata × List Str) :
    dedupPass (s1 ++ s2) acc = dedupPass s2 (dedupPass s1 acc) := by
  induction s1 generalizing acc with
  | nil => rfl
  | cons f rest ih =>
    by_cases hf : f.filePath ∈ acc.2
    · simp only [List.cons_append, dedupPass, hf, if_true]
      exact ih acc
    · simp only [List.cons_append, dedupPass, hf, if_false]
      exact ih _

theorem dedupPass_spec (stream : List FileMetadata) :
    ∀ files seen,
      (∀ q, q ∈ seen ↔ q ∈ files.map (fun x => x.filePath)) →
      List.Pairwise (fun a b => a.filePath ≠ b.filePath) files →
      List.Pairwise (fun a b => a.filePath ≠ b.filePath)
          (dedupPass stream (files, seen)).1 ∧
        (∀ q, q ∈ (dedupPass stream (files, seen)).2 ↔
          q ∈ (dedupPass stream (files, seen)).1.map (fun x => x.filePath)) ∧
        (∀ r ∈ (dedupPass stream (files, seen)).1,
          r ∈ files ∨ (r.filePath ∉ seen ∧
            stream.find? (fun f => decide (f.filePath = r.filePath)) = some r)) ∧
        (∀ x ∈ files, x ∈ (dedupPass stream (files, seen)).1) ∧
        (∀ g ∈ stream, ∃ r ∈ (dedupPass stream (files, seen)).1,
          r.filePath = g.filePath) := by
  induction stream with
  | nil =>
    intro files seen hseen hpw
    exact ⟨hpw, hseen, fun r hr => Or.inl hr, fun x hx => hx,
      fun g hg => absurd hg (List.not_mem_nil g)⟩
  | cons f rest ih =>
    intro files seen hseen hpw
    by_cases hf : f.filePath ∈ seen
    · simp only [dedupPass, hf, if_true]
      obtain ⟨ih1, ih2, ih3, ih4, ih5⟩ := ih files seen hseen hpw
      refine ⟨ih1, ih2, ?_, ih4, ?_⟩
      · intro r hr
        rcases ih3 r hr with h | ⟨hns, hfind⟩
        · exact Or.inl h
        · refine Or.inr ⟨hns, ?_⟩
          have hne : decide (f.filePath = r.filePath) = false :=
            decide_eq_false (fun he => hns (he ▸ hf))
          rw [List.find?_cons, hne]
          exact hfind
      · intro g hg
        rcases List.mem_cons.mp hg with hg | hg
        · obtain ⟨x, hx, hxp⟩ := List.mem_map.mp ((hseen f.filePath).mp hf)
          exact ⟨x, ih4 x hx, by rw [hg]; exact hxp⟩
        · exact ih5 g hg
    · simp only [dedupPass, hf, if_false]
      have hseen2 : ∀ q, q ∈ f.filePath :: seen ↔
          q ∈ (files ++ [f]).map (fun x => x.filePath) := by
        intro q
        simp only [List.mem_cons, List.map_append, List.map_cons, List.map_nil,
          List.mem_append, List.mem_singleton, hseen q]
        tauto
      have hpw2 : List.Pairwise (fun a b => a.filePath ≠ b.filePath) (files ++ [f]) := by
        rw [List.pairwise_append]
        refine ⟨hpw, List.pairwise_singleton _ _, ?_⟩
        intro a ha b hb
        rw [List.mem_singleton] at hb
        rw [hb]
        exact fun he => hf ((hseen f.filePath).mpr (List.mem_map.mpr ⟨a, ha, he⟩))
      obtain ⟨ih1, ih2, ih3, ih4, ih5⟩ := ih (files ++ [f]) (f.filePath :: seen) hseen2 hpw2
      refine ⟨ih1, ih2, ?_, ?_, ?_⟩
      · intro r hr
        rcases ih3 r hr with h | ⟨hns, hfind⟩
        · rw [List.mem_append, List.mem_singleton] at h
          rcases h with h | h
          · exact Or.inl h
          · subst h
            refine Or.inr ⟨hf, ?_⟩
            rw [List.find?_cons, decide_eq_true rfl]
        · have hns2 : r.filePath ∉ seen := fun hq => hns (List.mem_cons_of_mem _ hq)
          have hne : decide (f.filePath = r.filePath) = false :=
            decide_eq_false (fun he => hns (he ▸ List.mem_cons_self _ _))
          refine Or.inr ⟨hns2, ?_⟩
          rw [List.find?_cons, hne]
          exact hfind
      · intro x hx
        exact ih4 x (List.mem_append_left _ hx)
      · intro g hg
        rcases List.mem_cons.mp hg with hg | hg
        · exact ⟨f, ih4 f (List.mem_append_right _ (List.mem_singleton.mpr rfl)),
            by rw [hg]⟩
        · exact ih5 g hg

/-- C2: exactly one FileRecord survives for every resolved path of the
pre-dedup processing stream (direct records before artifact records, each in
document order), and it is the FIRST record of that stream with its path.
The three conjuncts give the claim: the output records have pairwise distinct
resolved paths (at most one per path), every resolved path produced by any
fragment of the stream still has a surviving record in the output (at least
one per path), and each surviving record equals the first stream record with
its path — so when the same resolved path is produced twice with different
content, exactly one FileRecord survives and its content is the first
declaration's. -/
theorem dedup_first_wins (content outputDir : Str) :
    List.Pairwise (fun a b => a.filePath ≠ b.filePath)
        (extractFiles content outputDir) ∧
      (∀ r ∈ extractFiles content outputDir,
        (allInfos content outputDir).find?
          (fun f => decide (f.filePath = r.filePath)) = some r) ∧
      ∀ g ∈ allInfos content outputDir,
        ∃ r ∈ extractFiles content outputDir, r.filePath = g.filePath := by
  have he : extractFiles content outputDir =
      (dedupPass (allInfos content outputDir) ([], [])).1 := by
    rw [extractFiles, allInfos, dedupPass_append]
  obtain ⟨h1, h2, h3, h4, h5⟩ := dedupPass_spec (allInfos content outputDir) [] []
    (by intro q; simp) List.Pairwise.nil
  rw [he]
  refine ⟨h1, ?_, h5⟩
  intro r hr
  rcases h3 r hr with h | ⟨_, hfind⟩
  · cases h
  · exact hfind

theorem dedup_first_wins_witness :
    ∃ r ∈ extractFiles (str "// a/b.ts\nx\n// a/b.ts\ny") (str "out"),
      r.filePath = (FileMetadata.mk (str "typescript") (str "b.ts")
        (str "out/a/b.ts") (str "y") (str "code-block")).filePath :=
  (dedup_first_wins (str "// a/b.ts\nx\n// a/b.ts\ny") (str "out")).2.2
    (FileMetadata.mk (str "typescript") (str "b.ts") (str "out/a/b.ts")
      (str "y") (str "code-block")) (by decide)

/-- C3: an artifact span whose `type` attribute value contains neither "code"
nor "html" contributes zero records, and every record of an extraction run
comes either from a direct code block of the document or from an artifact span
whose `type` value passed the code/html substring test — so a span such as
`type="text/markdown"` yields no Fragments even if its inner text contains
path-comment-looking lines and fenced blocks. -/
theorem artifact_type_filter (content outputDir : Str) :
    (∀ m ∈ artifactScan content, typeMatches (scanAttrs m.full) = false →
      artifactSpanInfos outputDir m = []) ∧
    ∀ r ∈ extractFiles content outputDir,
      (∃ b, b ∈ splitIntoCodeBlocks content ∧ r = processCodeBlock outputDir b none) ∨
      (∃ m, m ∈ artifactScan content ∧ typeMatches (scanAttrs m.full) = true ∧
        ∃ b, b ∈ splitIntoCodeBlocks m.inner ∧
          r = processCodeBlock outputDir b
            (some (orElseStr (lookupAttr (scanAttrs m.full) (str "language"))
              (detectLanguage m.inner)))) := by
  constructor
  · intro m hm ht
    rw [artifactSpanInfos, if_neg (by simp [ht])]
  · intro r h
    have he : extractFiles content outputDir =
        (dedupPass (allInfos content outputDir) ([], [])).1 := by
      rw [extractFiles, allInfos, dedupPass_append]
    rw [he] at h
    obtain ⟨_, _, h3, _, _⟩ := dedupPass_spec (allInfos content outputDir) [] []
      (by intro q; simp) List.Pairwise.nil
    rcases h3 r h with hmem | ⟨_, hfind⟩
    · cases hmem
    · have hmem := List.mem_of_find?_eq_some hfind
      rw [allInfos, List.mem_append] at hmem
      rcases hmem with hmem | hmem
      · left
        rw [directInfos] at hmem
        obtain ⟨b, hb, heq⟩ := List.mem_map.mp hmem
        exact ⟨b, hb, heq.symm⟩
      · right
        rw [artifactInfos] at hmem
        obtain ⟨m, hm, hr⟩ := List.mem_flatMap.mp hmem
        by_cases ht : typeMatches (scanAttrs m.full) = true
        · rw [artifactSpanInfos, if_pos ht] at hr
          obtain ⟨b, hb, heq⟩ := List.mem_map.mp hr
          exact ⟨m, hm, ht, b, hb, heq.symm⟩
        · rw [artifactSpanInfos, if_neg ht] at hr
          cases hr

theorem artifact_type_filter_witness :
    (∃ b, b ∈ splitIntoCodeBlocks (str "// a/b.ts\nx") ∧
      (FileMetadata.mk (str "typescript") (str "b.ts") (str "out/a/b.ts")
        (str "x") (str "code-block")) =
        processCodeBlock (str "out") b none) ∨
    (∃ m, m ∈ artifactScan (str "// a/b.ts\nx") ∧
      typeMatches (scanAttrs m.full) = true ∧
      ∃ b, b ∈ splitIntoCodeBlocks m.inner ∧
        (FileMetadata.mk (str "typescript") (str "b.ts") (str "out/a/b.ts")
          (str "x") (str "code-block")) =
          processCodeBlock (str "out") b
            (some (orElseStr (lookupAttr (scanAttrs m.full) (str "language"))
              (detectLanguage m.inner)))) :=
  (artifact_type_filter (str "// a/b.ts\nx") (str "out")).2 _ (by decide)
